import Mathlib

/-!
Verification development for kube-ingress-index (src/main.go).

The file shallowly embeds the core of the program: the endpoint-record
data model (`ingress`), the accumulator operations (`ingresses.upsert`,
`ingresses.delete`), the record normalizer (`buildFQDN`, `buildIngress`,
including a model of the Go standard library's `net/url.Parse` for inputs
of the shape `scheme://host`), the display sort (`sortIngresses`) and the
startup namespace validation from `main`.  Theorems below settle the
frozen claims about this code.
-/

set_option maxHeartbeats 1000000

namespace KII

/-- Endpoint record derived from a Kubernetes Ingress object
(struct `ingress`, src/main.go lines 247-253). -/
structure ingress where
  Name : String
  Namespace : String
  FQDN : String
deriving DecidableEq, Repr

namespace ingresses

/-- State transformer of `(*ingresses).upsert` (src/main.go lines 265-284):
scan `active` for a record with the same `Name`; if found the state is left
unchanged, otherwise the new record is appended.  The method returns a copy
of the new state, so the return value coincides with the new state. -/
def upsert (active : List ingress) (ing : ingress) : List ingress :=
  if active.any (fun k => k.Name == ing.Name) then active else active ++ [ing]

/-- State transformer of `(*ingresses).delete` (src/main.go lines 286-303):
keep exactly the records whose `Name` differs from the argument's; the
method returns a copy of the new state. -/
def delete (active : List ingress) (ing : ingress) : List ingress :=
  active.filter (fun k => !(k.Name == ing.Name))

end ingresses

/-- If some stored record already carries the upserted name, `upsert` leaves
the state unchanged (src/main.go lines 269-278). -/
theorem upsert_of_found (s : List ingress) (r : ingress)
    (h : ∃ x ∈ s, x.Name = r.Name) : ingresses.upsert s r = s := by
  obtain ⟨x, hx, hn⟩ := h
  have hc : s.any (fun k => k.Name == r.Name) = true :=
    List.any_eq_true.mpr ⟨x, hx, by simpa using hn⟩
  simp [ingresses.upsert, hc]

/-- If no stored record carries the upserted name, `upsert` appends the new
record (src/main.go lines 276-278). -/
theorem upsert_of_not_found (s : List ingress) (r : ingress)
    (h : ∀ x ∈ s, x.Name ≠ r.Name) : ingresses.upsert s r = s ++ [r] := by
  have hc : s.any (fun k => k.Name == r.Name) = false := by
    simp only [List.any_eq_false, beq_iff_eq]
    exact h
  simp [ingresses.upsert, hc]

/-- After an upsert, some stored record carries the upserted name. -/
theorem exists_name_after_upsert (s : List ingress) (r : ingress) :
    ∃ x ∈ ingresses.upsert s r, x.Name = r.Name := by
  by_cases h : ∃ x ∈ s, x.Name = r.Name
  · obtain ⟨x, hx, hn⟩ := h
    exact ⟨x, by rw [upsert_of_found s r ⟨x, hx, hn⟩]; exact hx, hn⟩
  · push_neg at h
    rw [upsert_of_not_found s r h]
    exact ⟨r, by simp⟩

/-- Claim C1: `upsert` is first-write-wins.  When a record with the same
name is already stored, the record set is left exactly as it was (the
stored record keeps its namespace and address); when the name is absent,
the new record is appended; and a second upsert of the same name (with any
attributes, in particular a different address) is a no-op. -/
theorem C1_upsert_first_write_wins (s : List ingress) (r : ingress) :
    (ingresses.upsert s r
        = if s.any (fun k => k.Name == r.Name) then s else s ++ [r]) ∧
    ((∃ x ∈ s, x.Name = r.Name) → ingresses.upsert s r = s) ∧
    ((∀ x ∈ s, x.Name ≠ r.Name) → ingresses.upsert s r = s ++ [r]) ∧
    (∀ r2 : ingress, r2.Name = r.Name →
      ingresses.upsert (ingresses.upsert s r) r2 = ingresses.upsert s r) := by
  refine ⟨rfl, upsert_of_found s r, upsert_of_not_found s r, ?_⟩
  intro r2 hname
  obtain ⟨x, hx, hn⟩ := exists_name_after_upsert s r
  exact upsert_of_found _ r2 ⟨x, hx, by rw [hn, hname]⟩

/-- Witness for C1: upserting name `web` with address `http://a`, then
again with a different namespace and address, keeps exactly the original
record. -/
theorem C1_witness :
    ingresses.upsert (ingresses.upsert [] ⟨"web", "ns1", "http://a"⟩)
        ⟨"web", "ns2", "http://b"⟩ = [⟨"web", "ns1", "http://a"⟩] := by
  have h := (C1_upsert_first_write_wins [] ⟨"web", "ns1", "http://a"⟩).2.2.2
      ⟨"web", "ns2", "http://b"⟩ rfl
  rw [h]
  rfl

/-- Claim C2: record identity is the name alone.  If a record named `n` is
stored (in any namespace), upserting another record named `n` — in
particular one from a different namespace — leaves the set unchanged, and
deleting by that name removes every stored record named `n` regardless of
its namespace. -/
theorem C2_identity_is_name_only (s : List ingress) (r r2 : ingress)
    (hmem : r ∈ s) (hname : r2.Name = r.Name) :
    ingresses.upsert s r2 = s ∧
    (∀ x ∈ ingresses.delete s r2, x.Name ≠ r2.Name) := by
  constructor
  · exact upsert_of_found s r2 ⟨r, hmem, hname.symm⟩
  · intro x hx
    have := List.mem_filter.mp hx
    simpa using this.2

/-- Witness for C2: with `web` stored under namespace `A`, upserting `web`
under namespace `B` is a no-op, and deleting `web` (from `B`) empties the
set. -/
theorem C2_witness :
    ingresses.upsert [⟨"web", "A", "http://a"⟩] ⟨"web", "B", "http://b"⟩
        = [⟨"web", "A", "http://a"⟩] ∧
    ingresses.delete [⟨"web", "A", "http://a"⟩] ⟨"web", "B", "http://b"⟩
        = [] := by
  have h := C2_identity_is_name_only [⟨"web", "A", "http://a"⟩]
      ⟨"web", "A", "http://a"⟩ ⟨"web", "B", "http://b"⟩ (by simp) rfl
  exact ⟨h.1, rfl⟩

/-- Claim C3: `delete` removes exactly the records carrying the argument's
name: no survivor carries it, every differently-named record survives, and
when no stored record carries it the set is returned unchanged. -/
theorem C3_delete_by_name (s : List ingress) (r : ingress) :
    (∀ x ∈ ingresses.delete s r, x.Name ≠ r.Name) ∧
    (∀ x ∈ s, x.Name ≠ r.Name → x ∈ ingresses.delete s r) ∧
    ((∀ x ∈ s, x.Name ≠ r.Name) → ingresses.delete s r = s) := by
  refine ⟨?_, ?_, ?_⟩
  · intro x hx
    have := List.mem_filter.mp hx
    simpa using this.2
  · intro x hx hne
    exact List.mem_filter.mpr ⟨hx, by simpa using hne⟩
  · intro h
    apply List.filter_eq_self.mpr
    intro x hx
    simpa using h x hx

/-- Witness for C3: deleting the absent name `gone` from a one-record set
returns that set unchanged. -/
theorem C3_witness :
    ingresses.delete [⟨"web", "A", "http://a"⟩] ⟨"gone", "A", "http://g"⟩
        = [⟨"web", "A", "http://a"⟩] := by
  exact (C3_delete_by_name [⟨"web", "A", "http://a"⟩]
      ⟨"gone", "A", "http://g"⟩).2.2 (by decide)

/-- An accumulator mutation, as driven by the watch event handlers
(src/main.go lines 309-343): `up` for the add/update handlers (both call
`upsert`), `del` for the delete handler. -/
inductive Op where
  | up (r : ingress)
  | del (r : ingress)
deriving DecidableEq, Repr

/-- Apply one mutation to an accumulator state. -/
def applyOp (s : List ingress) : Op → List ingress
  | .up r => ingresses.upsert s r
  | .del r => ingresses.delete s r

/-- Run a finite sequence of mutations from the empty initial state
(`accum := &ingresses{}`, src/main.go line 307). -/
def run (ops : List Op) : List ingress := ops.foldl applyOp []

/-- An upserted record must carry a non-empty address (the event handlers
only upsert records built by `buildIngress`, which rejects an empty FQDN);
deletes are unconstrained. -/
def opOk : Op → Bool
  | .up r => !(r.FQDN == "")
  | .del _ => true

/-- The accumulator invariant: pairwise distinct names and no empty
address. -/
def Inv (s : List ingress) : Prop :=
  (s.map (fun i => i.Name)).Nodup ∧ ∀ x ∈ s, x.FQDN ≠ ""

/-- One well-formed mutation preserves the accumulator invariant. -/
theorem inv_applyOp (s : List ingress) (op : Op) (hop : opOk op = true)
    (hs : Inv s) : Inv (applyOp s op) := by
  obtain ⟨hnd, hfq⟩ := hs
  cases op with
  | up r =>
    by_cases h : ∃ x ∈ s, x.Name = r.Name
    · show Inv (ingresses.upsert s r)
      rw [upsert_of_found s r h]
      exact ⟨hnd, hfq⟩
    · push_neg at h
      show Inv (ingresses.upsert s r)
      rw [upsert_of_not_found s r h]
      constructor
      · rw [List.map_append]
        simp only [List.map_cons, List.map_nil]
        rw [List.nodup_append]
        refine ⟨hnd, List.nodup_singleton _, ?_⟩
        intro a ha hb
        simp only [List.mem_singleton] at hb
        obtain ⟨x, hx, hxa⟩ := List.mem_map.mp ha
        exact h x hx (by rw [hxa, hb])
      · intro x hx
        rcases List.mem_append.mp hx with hx | hx
        · exact hfq x hx
        · simp only [List.mem_singleton] at hx
          subst hx
          simpa [opOk] using hop
  | del r =>
    constructor
    · exact List.Nodup.sublist
        (List.Sublist.map _ (List.filter_sublist s)) hnd
    · intro x hx
      exact hfq x (List.mem_filter.mp hx).1

/-- Auxiliary induction for C4: the invariant is preserved along any run of
well-formed mutations. -/
theorem inv_foldl (ops : List Op) :
    ∀ s : List ingress, ops.all opOk = true → Inv s →
      Inv (ops.foldl applyOp s) := by
  induction ops with
  | nil => intro s _ hs; exact hs
  | cons op rest ih =>
    intro s hall hs
    simp only [List.all_cons, Bool.and_eq_true] at hall
    exact ih (applyOp s op) hall.2 (inv_applyOp s op hall.1 hs)

/-- Claim C4: every accumulator state reachable from the empty state by a
finite sequence of upserts (each carrying a non-empty address) and deletes
contains no two records with the same name and no record with an empty
address. -/
theorem C4_reachable_invariant (ops : List Op) (h : ops.all opOk = true) :
    ((run ops).map (fun i => i.Name)).Nodup ∧
    ∀ x ∈ run ops, x.FQDN ≠ "" := by
  exact inv_foldl ops [] h ⟨List.nodup_nil, by intro x hx; cases hx⟩

/-- Witness for C4: a concrete run of two upserts (one of a duplicated
name) and a delete satisfies the invariant. -/
theorem C4_witness :
    (((run [.up ⟨"a", "n1", "http://a"⟩, .up ⟨"a", "n2", "http://b"⟩,
        .up ⟨"b", "n1", "http://c"⟩, .del ⟨"a", "n1", "http://a"⟩]).map
        (fun i => i.Name)).Nodup ∧
      ∀ x ∈ run [.up ⟨"a", "n1", "http://a"⟩, .up ⟨"a", "n2", "http://b"⟩,
        .up ⟨"b", "n1", "http://c"⟩, .del ⟨"a", "n1", "http://a"⟩],
        x.FQDN ≠ "") :=
  C4_reachable_invariant _ (by decide)

/-- Result of parsing `scheme://host` in the model of Go's `net/url`
(external standard library used by `buildFQDN`, src/main.go lines
220-230). `Host` is the authority's host (with optional port), `Rest` the
verbatim remainder after the authority. -/
structure GoURL where
  Scheme : String
  User : Option String
  Host : String
  Rest : String
deriving DecidableEq, Repr

/-- Serialization `(*url.URL).String()` for URLs produced by
`parseSchemeHost`: `scheme://[user@]host[rest]`.  Percent-escaping is not
modelled (the hosts in scope contain no characters Go would escape). -/
def GoURL.toString (u : GoURL) : String :=
  u.Scheme ++ ("://" ++
    ((match u.User with
      | none => ""
      | some ui => ui ++ "@") ++ (u.Host ++ u.Rest)))

/-- Suffix of `cs` strictly after the last occurrence of `sep` (the whole
list when `sep` does not occur); models Go's `strings.LastIndex` usage. -/
def afterLastChar (cs : List Char) (sep : Char) : List Char :=
  (cs.reverse.takeWhile (fun c => c != sep)).reverse

/-- Go `net/url.validOptionalPort` applied to the characters after the
port colon: every character must be a decimal digit (the empty port is
valid). -/
def validOptionalPortFrom (cs : List Char) : Bool :=
  cs.all (fun c => c.isDigit)

/-- Characters Go's `net/url` accepts unescaped in a host
(`shouldEscape(c, encodeHost)` is false): alphanumerics, RFC 3986
unreserved marks and sub-delims, plus `:[]<>\x22`; bytes outside ASCII
pass through unchecked.  Percent-escapes are not modelled. -/
def legalHostChar (c : Char) : Bool :=
  c.isAlphanum
    || ['-', '.', '_', '~', '!', '$', '&', '\'', '(', ')', '*', '+', ',',
        ';', '=', ':', '[', ']', '<', '>', '"'].contains c
    || decide (128 ≤ c.toNat)

/-- Characters Go's `net/url.validUserinfo` accepts in the userinfo
component. -/
def legalUserChar (c : Char) : Bool :=
  c.isAlphanum
    || ['-', '.', '_', ':', '~', '!', '$', '&', '\'', '(', ')', '*', '+',
        ',', ';', '=', '%', '@'].contains c

/-- Go `net/url.parseHost` as a validity check: a bracketed (IPv6) host
needs a closing bracket and a valid optional port after it; otherwise the
part after the last colon, if any, must be a valid port; and every
character must be legal in a host.  (IPv6 zone identifiers and
percent-escapes are not modelled.) -/
def parseGoHost (host : List Char) : Bool :=
  (if host.head? == some '[' then
    host.contains ']' &&
      (let after := afterLastChar host ']'
       after.isEmpty
         || (after.head? == some ':' && validOptionalPortFrom (after.drop 1)))
  else
    !host.contains ':' || validOptionalPortFrom (afterLastChar host ':'))
  && host.all legalHostChar

/-- Model of Go `net/url.Parse` on an input of the shape
`scheme ++ "://" ++ hostArg` (the only shape `buildFQDN` constructs,
src/main.go lines 222 and 224): the authority runs to the first of
`/ ? #`; an `@` splits userinfo (validated) from host (validated);
the remainder is kept verbatim.  Returns `none` exactly when Go's parse
returns a non-nil error (in which case `buildFQDN`'s `u` is nil). -/
def parseSchemeHost (scheme hostArg : String) : Option GoURL :=
  let cs := hostArg.data
  let auth := cs.takeWhile (fun c => c != '/' && c != '?' && c != '#')
  let rest := cs.drop auth.length
  if auth.contains '@' then
    let host := afterLastChar auth '@'
    let user := auth.take (auth.length - host.length - 1)
    if user.all legalUserChar && parseGoHost host then
      some ⟨scheme, some (String.mk user), String.mk host, String.mk rest⟩
    else none
  else
    if parseGoHost auth then
      some ⟨scheme, none, String.mk auth, String.mk rest⟩
    else none

/-- One host rule of a raw Ingress object (`spec.Rules[i].Host`). -/
structure IngressRule where
  Host : String
deriving DecidableEq, Repr

/-- One TLS block of a raw Ingress object (`spec.TLS[i].Hosts`). -/
structure IngressTLS where
  Hosts : List String
deriving DecidableEq, Repr

/-- The part of a raw Ingress spec `buildFQDN` reads. -/
structure IngressSpec where
  TLS : List IngressTLS
  Rules : List IngressRule
deriving DecidableEq, Repr

/-- A raw Ingress object as consumed by `buildIngress`: metadata
namespace and name plus the spec. -/
structure K8sIngress where
  Namespace : String
  Name : String
  Spec : IngressSpec
deriving DecidableEq, Repr

/-- Membership in the `tlsHosts` set built by `buildFQDN`
(src/main.go lines 209-215). -/
def tlsHosts (spec : IngressSpec) (h : String) : Bool :=
  spec.TLS.any (fun t => t.Hosts.contains h)

/-- The scheme `buildFQDN` chooses for a rule host (src/main.go lines
221-225): `https` when force-TLS is on or the host is TLS-secured, else
`http`. -/
def schemeFor (fT : Bool) (tls : String → Bool) (host : String) : String :=
  if fT || tls host then "https" else "http"

/-- The loopback test of src/main.go line 226:
`strings.HasPrefix(u.Host, "localhost:")`. -/
def localhostCheck (hostComp : String) : Bool :=
  "localhost:".data.isPrefixOf hostComp.data

/-- The body of `buildFQDN`'s loop for one rule (src/main.go lines
218-230): parse `scheme://host`; skip the rule (`none`) when the parse
fails, the host component is empty, or the host starts with
`localhost:`; otherwise the result is `u.String()`. -/
def ruleResult (fT : Bool) (tls : String → Bool) (r : IngressRule) :
    Option String :=
  match parseSchemeHost (schemeFor fT tls r.Host) r.Host with
  | none => none
  | some u =>
    if u.Host == "" || localhostCheck u.Host then none else some u.toString

/-- The loop of `buildFQDN` (src/main.go lines 217-232) over a rule list:
first accepted rule wins, otherwise the empty string. -/
def buildFQDNList (fT : Bool) (tls : String → Bool) :
    List IngressRule → String
  | [] => ""
  | r :: rest =>
    match ruleResult fT tls r with
    | some s => s
    | none => buildFQDNList fT tls rest

/-- Go `buildFQDN` (src/main.go lines 208-233). -/
def buildFQDN (fT : Bool) (ing : K8sIngress) : String :=
  buildFQDNList fT (tlsHosts ing.Spec) ing.Spec.Rules

/-- Go `buildIngress` (src/main.go lines 235-245): an empty FQDN is the
error case, otherwise the endpoint record is produced. -/
def buildIngress (fT : Bool) (ing : K8sIngress) : Except String ingress :=
  let fqdn := buildFQDN fT ing
  if fqdn = "" then Except.error "empty FQDN"
  else Except.ok ⟨ing.Name, ing.Namespace, fqdn⟩

/-- A successful parse returns a URL carrying the requested scheme. -/
theorem parseSchemeHost_scheme (sch h : String) (u : GoURL)
    (hp : parseSchemeHost sch h = some u) : u.Scheme = sch := by
  unfold parseSchemeHost at hp
  simp only at hp
  split at hp
  · split at hp
    · cases hp; rfl
    · cases hp
  · split at hp
    · cases hp; rfl
    · cases hp

/-- Unfolding `ruleResult` after a failed parse. -/
theorem ruleResult_of_parse_none (fT : Bool) (tls : String → Bool)
    (r : IngressRule)
    (hp : parseSchemeHost (schemeFor fT tls r.Host) r.Host = none) :
    ruleResult fT tls r = none := by
  unfold ruleResult
  rw [hp]

/-- Unfolding `ruleResult` after a successful parse. -/
theorem ruleResult_of_parse_some (fT : Bool) (tls : String → Bool)
    (r : IngressRule) (u : GoURL)
    (hp : parseSchemeHost (schemeFor fT tls r.Host) r.Host = some u) :
    ruleResult fT tls r
      = if u.Host == "" || localhostCheck u.Host then none
        else some u.toString := by
  unfold ruleResult
  rw [hp]

/-- An accepted rule yields exactly `scheme ++ "://" ++ remainder`. -/
theorem ruleResult_shape (fT : Bool) (tls : String → Bool)
    (r : IngressRule) (s : String) (h : ruleResult fT tls r = some s) :
    ∃ t, s = schemeFor fT tls r.Host ++ ("://" ++ t) := by
  cases hp : parseSchemeHost (schemeFor fT tls r.Host) r.Host with
  | none =>
    rw [ruleResult_of_parse_none fT tls r hp] at h
    cases h
  | some u =>
    rw [ruleResult_of_parse_some fT tls r u hp] at h
    split at h
    · cases h
    · have hs := parseSchemeHost_scheme _ _ _ hp
      injection h with h2
      refine ⟨(match u.User with
        | none => ""
        | some ui => ui ++ "@") ++ (u.Host ++ u.Rest), ?_⟩
      rw [← h2]
      show u.Scheme ++ _ = _
      rw [hs]

/-- Collapsing the literal scheme onto the separator. -/
theorem https_append (t : String) :
    "https" ++ ("://" ++ t) = "https://" ++ t := by
  rw [← String.append_assoc,
    show ("https" ++ "://" : String) = "https://" from rfl]

/-- Collapsing the literal scheme onto the separator. -/
theorem http_append (t : String) :
    "http" ++ ("://" ++ t) = "http://" ++ t := by
  rw [← String.append_assoc,
    show ("http" ++ "://" : String) = "http://" from rfl]

/-- A string cannot begin with both `https://` and `http://`. -/
theorem https_ne_http (a b : String) :
    "https://" ++ a ≠ "http://" ++ b := by
  intro h
  have h2 : (("https://" ++ a).data.take 7) = (("http://" ++ b).data.take 7) := by
    rw [h]
  rw [String.data_append, String.data_append] at h2
  rw [show ("https://" : String).data
      = ['h', 't', 't', 'p', 's', ':', '/', '/'] from rfl] at h2
  rw [show ("http://" : String).data
      = ['h', 't', 't', 'p', ':', '/', '/'] from rfl] at h2
  rw [List.take_append_of_le_length (by decide),
    List.take_append_of_le_length (by decide)] at h2
  exact absurd h2 (by decide)

/-- The normalizer's output is empty or comes from some rule, with the
scheme that rule's TLS status selects. -/
theorem buildFQDNList_shape (fT : Bool) (tls : String → Bool)
    (rs : List IngressRule) :
    buildFQDNList fT tls rs = "" ∨
    ∃ r ∈ rs, ∃ t,
      buildFQDNList fT tls rs = schemeFor fT tls r.Host ++ ("://" ++ t) := by
  induction rs with
  | nil => exact Or.inl rfl
  | cons r rest ih =>
    cases hr : ruleResult fT tls r with
    | none =>
      rcases ih with h | ⟨r2, hr2, t, ht⟩
      · exact Or.inl (by simp only [buildFQDNList, hr]; exact h)
      · exact Or.inr ⟨r2, List.mem_cons_of_mem _ hr2, t,
          by simp only [buildFQDNList, hr]; exact ht⟩
    | some s =>
      obtain ⟨t, ht⟩ := ruleResult_shape fT tls r s hr
      exact Or.inr ⟨r, List.mem_cons_self _ _, t,
        by simp only [buildFQDNList, hr]; exact ht⟩

/-- Claim C5: for every raw object the normalizer chooses `https` for the
producing rule's host exactly when force-TLS is on or that host is in the
object's TLS host set, and `http` otherwise; in particular, with force-TLS
off, a single rule whose host is not TLS-listed yields an address
beginning with `http://`. -/
theorem C5_scheme_selection (fT : Bool) (ing : K8sIngress) :
    (buildFQDN fT ing = "" ∨
      ∃ r ∈ ing.Spec.Rules,
        ((∃ t, buildFQDN fT ing = "https://" ++ t) ↔
          (fT || tlsHosts ing.Spec r.Host) = true) ∧
        ((∃ t, buildFQDN fT ing = "http://" ++ t) ↔
          (fT || tlsHosts ing.Spec r.Host) = false)) ∧
    (fT = false → ∀ r0, ing.Spec.Rules = [r0] →
      tlsHosts ing.Spec r0.Host = false → buildFQDN fT ing ≠ "" →
      ∃ t, buildFQDN fT ing = "http://" ++ t) := by
  have main : buildFQDN fT ing = "" ∨
      ∃ r ∈ ing.Spec.Rules,
        ((∃ t, buildFQDN fT ing = "https://" ++ t) ↔
          (fT || tlsHosts ing.Spec r.Host) = true) ∧
        ((∃ t, buildFQDN fT ing = "http://" ++ t) ↔
          (fT || tlsHosts ing.Spec r.Host) = false) := by
    rcases buildFQDNList_shape fT (tlsHosts ing.Spec) ing.Spec.Rules
      with h | ⟨r, hr, t, ht⟩
    · exact Or.inl h
    right
    refine ⟨r, hr, ?_, ?_⟩
    · constructor
      · rintro ⟨t2, ht2⟩
        cases hb : (fT || tlsHosts ing.Spec r.Host) with
        | true => rfl
        | false =>
          exfalso
          simp only [schemeFor, hb, Bool.false_eq_true, if_false] at ht
          exact https_ne_http t2 t (ht2.symm.trans (ht.trans (http_append t)))
      · intro hc
        refine ⟨t, ht.trans ?_⟩
        simp only [schemeFor, hc, if_true]
        exact https_append t
    · constructor
      · rintro ⟨t2, ht2⟩
        cases hb : (fT || tlsHosts ing.Spec r.Host) with
        | false => rfl
        | true =>
          exfalso
          simp only [schemeFor, hb, if_true] at ht
          have ht3 := ht.trans (https_append t)
          exact https_ne_http t t2 (ht3.symm.trans ht2)
      · intro hc
        refine ⟨t, ht.trans ?_⟩
        simp only [schemeFor, hc, Bool.false_eq_true, if_false]
        exact http_append t
  refine ⟨main, ?_⟩
  intro hf r0 hrules htls hne
  rcases main with h | ⟨r, hr, _, hiff2⟩
  · exact absurd h hne
  · rw [hrules] at hr
    rw [List.mem_singleton] at hr
    subst hr
    exact hiff2.mpr (by rw [hf, htls]; rfl)

/-- Witness for C5: with force-TLS off, one rule host `app.example.com`
and no TLS section, the derived address begins with `http://`. -/
theorem C5_witness :
    ∃ t, buildFQDN false ⟨"default", "web", ⟨[], [⟨"app.example.com"⟩]⟩⟩
      = "http://" ++ t := by
  have h := (C5_scheme_selection false
    ⟨"default", "web", ⟨[], [⟨"app.example.com"⟩]⟩⟩).2 rfl
    ⟨"app.example.com"⟩ rfl (by decide) (by decide)
  exact h

/-- Claim C6: a rule whose parsed URL has an empty host component or a
host beginning with `localhost:` is skipped in favour of the remaining
rules; and an object whose only rule's host is `localhost:8080` makes
`buildIngress` fail with the empty-FQDN error (no record), for any
force-TLS setting and any TLS section. -/
theorem C6_loopback_and_empty_rejection :
    (∀ (fT : Bool) (tls : String → Bool) (r : IngressRule)
        (rest : List IngressRule) (u : GoURL),
      parseSchemeHost (schemeFor fT tls r.Host) r.Host = some u →
      (u.Host == "" || localhostCheck u.Host) = true →
      buildFQDNList fT tls (r :: rest) = buildFQDNList fT tls rest) ∧
    (∀ (fT : Bool) (ns nm : String) (tlsList : List IngressTLS),
      buildIngress fT ⟨ns, nm, ⟨tlsList, [⟨"localhost:8080"⟩]⟩⟩
        = Except.error "empty FQDN") := by
  constructor
  · intro fT tls r rest u hp hrej
    have hn : ruleResult fT tls r = none := by
      rw [ruleResult_of_parse_some fT tls r u hp, if_pos hrej]
    simp only [buildFQDNList, hn]
  · intro fT ns nm tlsList
    have hfq : buildFQDN fT ⟨ns, nm, ⟨tlsList, [⟨"localhost:8080"⟩]⟩⟩
        = "" := by
      unfold buildFQDN buildFQDNList ruleResult schemeFor
      cases hc : (fT
          || tlsHosts ⟨tlsList, [⟨"localhost:8080"⟩]⟩
              (IngressRule.mk "localhost:8080").Host) <;>
        rfl
    rw [buildIngress, hfq]
    rfl

/-- Witness for C6: a first rule with an empty host is skipped (its parsed
URL has an empty host component), and the `localhost:8080`-only object is
rejected. -/
theorem C6_witness :
    buildFQDNList true (fun _ => false) (⟨""⟩ :: [⟨"app.example.com"⟩])
        = buildFQDNList true (fun _ => false) [⟨"app.example.com"⟩] ∧
    buildIngress true ⟨"default", "web", ⟨[], [⟨"localhost:8080"⟩]⟩⟩
        = Except.error "empty FQDN" := by
  constructor
  · exact C6_loopback_and_empty_rejection.1 true (fun _ => false) ⟨""⟩
      [⟨"app.example.com"⟩] ⟨"https", none, "", ""⟩ (by decide) (by decide)
  · exact C6_loopback_and_empty_rejection.2 true "default" "web" []

/-- Claim C7: when some rule produces a valid, non-loopback URL, the
normalizer returns the address of the first such rule; the rules after it
have no effect on the result. -/
theorem C7_first_rule_wins (fT : Bool) (tls : String → Bool)
    (skipped : List IngressRule) (r : IngressRule)
    (post : List IngressRule) (s : String)
    (hskip : ∀ p ∈ skipped, ruleResult fT tls p = none)
    (hr : ruleResult fT tls r = some s) :
    buildFQDNList fT tls (skipped ++ r :: post) = s := by
  induction skipped with
  | nil => simp only [List.nil_append, buildFQDNList, hr]
  | cons p ps ih =>
    have hp := hskip p (List.mem_cons_self _ _)
    simp only [List.cons_append, buildFQDNList, hp]
    exact ih (fun q hq => hskip q (List.mem_cons_of_mem _ hq))

/-- Witness for C7: with an empty-host rule first, the accepted second
rule `app.example.com` decides the address and the trailing rule is
ignored. -/
theorem C7_witness :
    buildFQDNList true (fun _ => false)
        ([⟨""⟩] ++ ⟨"app.example.com"⟩ :: [⟨"other.example.org"⟩])
      = "https://app.example.com" := by
  exact C7_first_rule_wins true (fun _ => false) [⟨""⟩]
    ⟨"app.example.com"⟩ [⟨"other.example.org"⟩] "https://app.example.com"
    (by decide) (by decide)

/-- Object whose only rule host is exactly `localhost` and whose TLS
section lists `localhost`. -/
def ingLocalhostTLS : K8sIngress :=
  ⟨"d", "w", ⟨[⟨["localhost"]⟩], [⟨"localhost"⟩]⟩⟩

/-- Counterexample to C10 as stated: with force-TLS disabled, the object
whose only rule host is `localhost` yields the record address
`https://localhost` (because `localhost` is TLS-listed), not
`http://localhost`. -/
theorem C10_counterexample :
    buildIngress false ingLocalhostTLS
        = Except.ok ⟨"w", "d", "https://localhost"⟩ ∧
    buildIngress false ingLocalhostTLS
        ≠ Except.ok ⟨"w", "d", "http://localhost"⟩ := by
  constructor
  · rfl
  · intro h
    have h2 := (show buildIngress false ingLocalhostTLS
        = Except.ok ⟨"w", "d", "https://localhost"⟩ from rfl).symm.trans h
    exact absurd (Except.ok.inj h2) (by decide)

/-- Claim C10 as amended: a host equal to `localhost` (no colon) is
accepted by the loopback filter, and the produced record's address is
`https://localhost` when force-TLS is on or `localhost` is TLS-listed,
`http://localhost` otherwise. -/
theorem C10_amended_localhost_no_port (fT : Bool) (ns nm : String)
    (tlsList : List IngressTLS) :
    buildIngress fT ⟨ns, nm, ⟨tlsList, [⟨"localhost"⟩]⟩⟩
      = Except.ok ⟨nm, ns,
          if fT || tlsHosts ⟨tlsList, [⟨"localhost"⟩]⟩ "localhost"
          then "https://localhost" else "http://localhost"⟩ := by
  have hfq : buildFQDN fT ⟨ns, nm, ⟨tlsList, [⟨"localhost"⟩]⟩⟩
      = if fT || tlsHosts ⟨tlsList, [⟨"localhost"⟩]⟩ "localhost"
        then "https://localhost" else "http://localhost" := by
    unfold buildFQDN buildFQDNList ruleResult schemeFor
    cases hc : (fT
        || tlsHosts ⟨tlsList, [⟨"localhost"⟩]⟩
            (IngressRule.mk "localhost").Host) <;>
      rfl
  rw [buildIngress, hfq]
  cases hc : (fT || tlsHosts ⟨tlsList, [⟨"localhost"⟩]⟩ "localhost") <;>
    rfl

/-- Byte-wise lexicographic less-or-equal on character lists, as Go's
`<` on (ASCII) strings compares them in `sortIngresses`'s less function
(UTF-8 byte order coincides with code-point order). -/
def listLeChar : List Char → List Char → Bool
  | [], _ => true
  | _ :: _, [] => false
  | a :: as, b :: bs =>
    if a.toNat = b.toNat then listLeChar as bs
    else decide (a.toNat < b.toNat)

/-- Strict variant of `listLeChar`. -/
def listLtChar : List Char → List Char → Bool
  | [], [] => false
  | [], _ :: _ => true
  | _ :: _, [] => false
  | a :: as, b :: bs =>
    if a.toNat = b.toNat then listLtChar as bs
    else decide (a.toNat < b.toNat)

/-- The comparison `listLeChar` is total. -/
theorem listLeChar_total :
    ∀ a b : List Char, listLeChar a b = true ∨ listLeChar b a = true := by
  intro a
  induction a with
  | nil => intro b; exact Or.inl rfl
  | cons x xs ih =>
    intro b
    cases b with
    | nil => exact Or.inr rfl
    | cons y ys =>
      simp only [listLeChar]
      by_cases h : x.toNat = y.toNat
      · rw [if_pos h, if_pos h.symm]
        exact ih ys
      · rw [if_neg h, if_neg (fun e => h e.symm)]
        rcases Nat.lt_or_ge x.toNat y.toNat with hlt | hge
        · exact Or.inl (by simpa using hlt)
        · exact Or.inr (by
            simpa using lt_of_le_of_ne hge (fun e => h e.symm))

/-- The comparison `listLeChar` is transitive. -/
theorem listLeChar_trans :
    ∀ a b c : List Char, listLeChar a b = true → listLeChar b c = true →
      listLeChar a c = true := by
  intro a
  induction a with
  | nil => intro b c _ _; rfl
  | cons x xs ih =>
    intro b c hab hbc
    cases b with
    | nil => simp [listLeChar] at hab
    | cons y ys =>
      cases c with
      | nil => simp [listLeChar] at hbc
      | cons z zs =>
        simp only [listLeChar] at hab hbc ⊢
        by_cases hxy : x.toNat = y.toNat
        · rw [if_pos hxy] at hab
          by_cases hyz : y.toNat = z.toNat
          · rw [if_pos hyz] at hbc
            rw [if_pos (hxy.trans hyz)]
            exact ih ys zs hab hbc
          · rw [if_neg hyz] at hbc
            have hlt : y.toNat < z.toNat := by simpa using hbc
            have hxz : x.toNat < z.toNat := by omega
            rw [if_neg (by omega)]
            simpa using hxz
        · rw [if_neg hxy] at hab
          have hlt : x.toNat < y.toNat := by simpa using hab
          by_cases hyz : y.toNat = z.toNat
          · have hxz : x.toNat < z.toNat := by omega
            rw [if_neg (by omega)]
            simpa using hxz
          · rw [if_neg hyz] at hbc
            have hlt2 : y.toNat < z.toNat := by simpa using hbc
            have hxz : x.toNat < z.toNat := by omega
            rw [if_neg (by omega)]
            simpa using hxz

/-- Go `(ingress).String()` (src/main.go lines 255-257). -/
def ingressString (i : ingress) : String :=
  "Ingress: namespace=" ++ i.Namespace ++ ", name=" ++ i.Name
    ++ ", fqdn=" ++ i.FQDN

/-- The sort key of `sortIngresses` (src/main.go lines 189-193):
`strings.ToLower(ing.String())`, as a character list.  (Go lowercases the
full Unicode range; `Char.toLower` matches it on ASCII, which covers the
rendered record fields in scope.) -/
def sortKey (i : ingress) : List Char :=
  (ingressString i).data.map Char.toLower

/-- The ordering `sortIngresses` establishes: lowercased rendered strings
compare `listLeChar`. -/
def ingLe (a b : ingress) : Prop :=
  listLeChar (sortKey a) (sortKey b) = true

instance : DecidableRel ingLe := fun a b => by
  unfold ingLe
  infer_instance

instance : IsTotal ingress ingLe :=
  ⟨fun a b => listLeChar_total (sortKey a) (sortKey b)⟩

instance : IsTrans ingress ingLe :=
  ⟨fun a b c => listLeChar_trans (sortKey a) (sortKey b) (sortKey c)⟩

/-- Go `sortIngresses` (src/main.go lines 189-193): `sort.Slice` with
less function `ToLower(ing[i].String()) < ToLower(ing[j].String())`,
modelled as a comparison sort by that key (the resulting order is what
the claims observe; Go's sort is unstable, so tie order is immaterial). -/
def sortIngresses (l : List ingress) : List ingress :=
  List.insertionSort ingLe l

/-- Modelled from the spec's words (not from the source): the
case-insensitive composite key (namespace, name, address), compared
lexicographically component by component. -/
def compositeKeyLe (a b : ingress) : Prop :=
  listLtChar (a.Namespace.data.map Char.toLower)
      (b.Namespace.data.map Char.toLower) = true ∨
  (a.Namespace.data.map Char.toLower = b.Namespace.data.map Char.toLower ∧
    (listLtChar (a.Name.data.map Char.toLower)
        (b.Name.data.map Char.toLower) = true ∨
      (a.Name.data.map Char.toLower = b.Name.data.map Char.toLower ∧
        listLeChar (a.FQDN.data.map Char.toLower)
          (b.FQDN.data.map Char.toLower) = true)))

instance (a b : ingress) : Decidable (compositeKeyLe a b) := by
  unfold compositeKeyLe
  infer_instance

/-- Record whose namespace is a proper prefix of `ingB`'s. -/
def ingA : ingress := ⟨"n", "ab", "f"⟩

/-- Record whose namespace extends `ingA`'s with `!` (a character below
`,` in code-point order). -/
def ingB : ingress := ⟨"n", "ab!", "f"⟩

/-- Counterexample to C8 as stated: the code sorts by the lowercased
rendered string `Ingress: namespace=..., name=..., fqdn=...`, not by the
composite key (namespace, name, address).  With namespaces `ab` and `ab!`
the sorted list places `ab!` first, although under the composite key
`ab!` does not compare less-or-equal to `ab`. -/
theorem C8_counterexample :
    sortIngresses [ingA, ingB] = [ingB, ingA] ∧
    ¬ compositeKeyLe ingB ingA := by
  constructor
  · rfl
  · decide

/-- Claim C8 as amended: the rendered list is sorted by case-insensitive
lexicographic comparison of the rendered record strings (every record in
the sorted output compares `ingLe` to each later one), and the sort
permutes — never loses or invents — records of the snapshot it is applied
to. -/
theorem C8_amended_sorted_by_rendered_string (l : List ingress) :
    List.Pairwise ingLe (sortIngresses l) ∧ (sortIngresses l).Perm l :=
  ⟨List.sorted_insertionSort ingLe l, List.perm_insertionSort ingLe l⟩

/-- Go `strings.Split` with a one-character separator, on character
lists (src/main.go line 77 splits the `-namespaces` flag on `,`). -/
def goSplitChars : List Char → Char → List (List Char)
  | [], _ => [[]]
  | c :: cs, sep =>
    if c = sep then [] :: goSplitChars cs sep
    else
      match goSplitChars cs sep with
      | [] => [[c]]
      | a :: rest => (c :: a) :: rest

/-- `strings.Split` never returns an empty slice. -/
theorem goSplitChars_ne_nil (cs : List Char) (sep : Char) :
    goSplitChars cs sep ≠ [] := by
  cases cs with
  | nil => simp [goSplitChars]
  | cons c cs =>
    simp only [goSplitChars]
    split
    · simp
    · split
      · simp
      · simp

/-- The namespace flag after the environment fallback of src/main.go
lines 78-81: when the `-namespaces` flag is empty, the `NAMESPACES`
environment variable replaces it. -/
def resolvedNamespaceFlag (flagNs env : String) : String :=
  if flagNs = "" then env else flagNs

/-- The `watchableNamespaces` slice of src/main.go line 77: the original
flag value split on commas (computed before the environment fallback). -/
def watchableNamespaces (flagNs : String) : List (List Char) :=
  goSplitChars flagNs.data ','

/-- The panic condition of src/main.go lines 82-84. -/
def startupPanics (flagNs env : String) : Bool :=
  (resolvedNamespaceFlag flagNs env == "")
    || ((watchableNamespaces flagNs).length == 0)

/-- Claim C9: startup validation panics exactly when no namespace is
configured — the flag is empty and the environment fallback is empty too;
with at least one namespace configured (flag or fallback non-empty),
validation passes. -/
theorem C9_startup_validation (flagNs env : String) :
    startupPanics flagNs env = true ↔ (flagNs = "" ∧ env = "") := by
  unfold startupPanics
  have hlen : ((watchableNamespaces flagNs).length == 0) = false := by
    have hne := goSplitChars_ne_nil flagNs.data ','
    unfold watchableNamespaces
    cases h : goSplitChars flagNs.data ',' with
    | nil => exact absurd h hne
    | cons a rest => simp
  rw [hlen, Bool.or_false]
  unfold resolvedNamespaceFlag
  by_cases hf : flagNs = ""
  · rw [if_pos hf]
    simp [hf]
  · rw [if_neg hf]
    simp [hf]

/-- Witness for C9: both flag and fallback empty panics; the flag value
`default` passes validation. -/
theorem C9_witness :
    startupPanics "" "" = true ∧ startupPanics "default" "" = false := by
  constructor
  · exact (C9_startup_validation "" "").mpr ⟨rfl, rfl⟩
  · cases h : startupPanics "default" "" with
    | false => rfl
    | true =>
      exact absurd ((C9_startup_validation "default" "").mp h).1 (by decide)

end KII
